import Mathlib

/-!
Verification of the local de-periodization code in src/main.cpp.

The development shallowly embeds the C++ source:
bit sequences become `List Nat`, the fixed-width bit/integer codec becomes
`toBinary`/`fromBinary`, the Z-algorithm and the period routines become
`ComputeZ`/`ComputePeriods`/`ComputeMinPeriod`, and the encoder/decoder
become fuel-driven functions `encode`/`decode` whose correction and unwind
steps mirror the in-place vector surgery of the source.  Out-of-range
vector reads and the failing `assert` in the source are modelled as
explicit failure outcomes (`EncResult.abort`, `Option.none`); the unproven
outer encode loop is driven by explicit fuel (`EncResult.fuelOut` when it
runs out).  All machine integers in the source stay far below 2^31 in the
regimes the theorems speak about, so they are modelled as `Nat`.
-/

set_option maxRecDepth 8000

namespace Deperiodize

/-! Part 1: the shallow embedding (all definitions). -/

/-- Halving recursion for the ceiling of the base-2 logarithm; the first
argument is structural descent fuel (any value at least n works). -/
def clog2Aux : Nat → Nat → Nat
  | 0, _ => 0
  | f+1, n => if n ≤ 1 then 0 else clog2Aux f ((n + 1) / 2) + 1

/-- Least k with n ≤ 2^k.  Models the C++ expression ceil(log2(n)) that
encode, decode and main compute (exact for every n the program can use). -/
def clog2 (n : Nat) : Nat := clog2Aux n n

/-- Embeds toBinary: the j-th produced bit is bit j of i, little-endian,
exactly the C++ (i AND (1 SHL j)) SHR j on a nonnegative int. -/
def toBinary (i N : Nat) : List Nat :=
  (List.range N).map fun j => i / 2 ^ j % 2

/-- Embeds fromBinary: accumulates bin[j] * 2^j over j < N in loop order. -/
def fromBinary (bin : List Nat) (N : Nat) : Nat :=
  (List.range N).foldl (fun acc j => acc + bin.getD j 0 * 2 ^ j) 0

/-- Length of the longest common prefix of two bit sequences; Z[i] in the
design description is lcp s (s.drop i). -/
def lcp : List Nat → List Nat → Nat
  | a :: as, b :: bs => if a = b then lcp as bs + 1 else 0
  | _, _ => 0

/-- The matching loop of the Z algorithm: starting from right end R it
extends while s[R-L] equals s[R]; the third argument is structural
descent fuel (s.length + 1 - R at the call site always suffices). -/
def zExtendAux (s : List Nat) (L : Nat) : Nat → Nat → Nat
  | 0, R => R
  | f+1, R =>
    if R < s.length ∧ s.getD (R - L) 0 = s.getD R 0 then zExtendAux s L f (R + 1)
    else R

/-- The while loop of ComputeZ extending R while R < n and s[R-L] == s[R],
returning the final R. -/
def zExtend (s : List Nat) (L R : Nat) : Nat :=
  zExtendAux s L (s.length + 1 - R) R

/-- One iteration of the for loop of ComputeZ: the state is the triple
(z, L, R) and i is the loop counter. -/
def zStep (s : List Nat) (st : List Nat × Nat × Nat) (i : Nat) : List Nat × Nat × Nat :=
  if st.2.2 < i then
    (st.1.set (i - 1) (zExtend s i i - i), i, zExtend s i i - 1)
  else if st.1.getD (i - st.2.1 - 1) 0 < st.2.2 - i + 1 then
    (st.1.set (i - 1) (st.1.getD (i - st.2.1 - 1) 0), st.2.1, st.2.2)
  else
    (st.1.set (i - 1) (zExtend s i st.2.2 - i), i, zExtend s i st.2.2 - 1)

/-- Embeds ComputeZ: z is zero-initialised with the length of s and the
loop runs i = 1 .. length-1 threading (z, L, R). -/
def ComputeZ (s : List Nat) : List Nat :=
  ((List.range' 1 (s.length - 1)).foldl (zStep s) (List.replicate s.length 0, 0, 0)).1

/-- Loop invariant of ComputeZ before processing index i: entries below i
hold true Z values, entries from i on are still zero, and [L, R] is a
Z box (s[L..R] matches a prefix of s). -/
structure ZInv (s : List Nat) (i : Nat) (st : List Nat × Nat × Nat) : Prop where
  hlen : st.1.length = s.length
  hLi : st.2.1 < i
  hLR : st.2.1 ≤ st.2.2 + 1
  hRn : st.2.2 < s.length
  hL0 : 1 ≤ st.2.1 ∨ st.2.2 = 0
  hdone : ∀ j, 1 ≤ j → j < i → st.1.getD (j - 1) 0 = lcp s (s.drop j)
  htodo : ∀ j, i ≤ j → j ≤ s.length → st.1.getD (j - 1) 0 = 0
  hbox : ∀ u, u < st.2.2 + 1 - st.2.1 → s.getD (st.2.1 + u) 0 = s.getD u 0

/-- Embeds ComputePeriods: i in 1..length is kept iff i + z[i-1] equals
the length, collected in increasing order of i. -/
def ComputePeriods (s : List Nat) : List Nat :=
  (List.range' 1 s.length).filter fun i => i + (ComputeZ s).getD (i - 1) 0 == s.length

/-- Embeds ComputeMinPeriod.  The C++ dereferences min_element of the
period vector, which has no value on an empty vector; that precondition
violation is modelled as none. -/
def ComputeMinPeriod (s : List Nat) : Option Nat :=
  (ComputePeriods s).min?

/-- The Z array entry the design description associates with a candidate
period q of s: the longest common prefix of s and its suffix at q, with
the out-of-range entry at q = length read as 0.  This is the second,
spec-side definition that ComputePeriods is compared against. -/
def zSpec (s : List Nat) (q : Nat) : Nat :=
  if q < s.length then lcp s (s.drop q) else 0

/-- The list of periods as the design description defines it: all q in
1..length with q + Z[q] equal to the length, in ascending order. -/
def periodsSpec (s : List Nat) : List Nat :=
  (List.range' 1 s.length).filter fun q => q + zSpec s q == s.length

/-- Sets count entries of s to 0 starting at offset a, in ascending order;
embeds the marker-clearing loop for j in (i+period, i+p). -/
def setZeros : List Nat → Nat → Nat → List Nat
  | s, _, 0 => s
  | s, a, c+1 => setZeros (s.set a 0) (a + 1) c

/-- One correction of a violating window (lines 127-139 of the source):
erase positions [i+p, i+l), force bit i+d to 1 and bits strictly between
i+d and i+p to 0, then append the b-bit encoding of i and a 0 flag. -/
def correctionStep (out : List Nat) (i d p l b : Nat) : List Nat :=
  setZeros ((out.take (i + p) ++ out.drop (i + l)).set (i + d) 1) (i + d + 1) (p - d - 1)
    ++ toBinary i b ++ [0]

/-- One left-to-right scan of all window starts (the for loop of encode).
The index list argument carries the remaining window starts; found
records whether some correction fired.  none models a run aborted by the
failing assert out.size() == n+1, or by the undefined min_element of an
empty window. -/
def encodePass (n l p b : Nat) : List Nat → Bool → List Nat → Option (List Nat × Bool)
  | out, found, [] => some (out, found)
  | out, found, i :: rest =>
    match ComputeMinPeriod ((out.drop i).take l) with
    | none => none
    | some d =>
      if d < p then
        if (correctionStep out i d p l b).length = n + 1 then
          encodePass n l p b (correctionStep out i d p l b) true rest
        else none
      else encodePass n l p b out found rest

/-- Outcome of a fuel-driven encode run: a returned sequence, an aborted
run (failed assert / undefined behaviour), or exhausted fuel standing for
an unfinished run of the unbounded while loop. -/
inductive EncResult
  | ok : List Nat → EncResult
  | abort : EncResult
  | fuelOut : EncResult
  deriving DecidableEq

/-- The unbounded rescan loop of encode, driven by explicit fuel. -/
def encodeLoop (n l p b : Nat) : Nat → List Nat → EncResult
  | 0, _ => EncResult.fuelOut
  | fuel+1, out =>
    match encodePass n l p b out false (List.range ((n + 1) - (l - 1))) with
    | none => EncResult.abort
    | some (out2, found) =>
      if found then encodeLoop n l p b fuel out2 else EncResult.ok out2

/-- Embeds encode: append a single 1 to the input and rescan until a full
pass applies no correction. -/
def encode (x : List Nat) (n l p fuel : Nat) : EncResult :=
  encodeLoop n l p (clog2 n) fuel (x ++ [1])

/-- The backward marker scan of decode: from j downward, return the first
position holding a nonzero bit.  Falling off the low end (where the C++
loop would read before the buffer) yields none. -/
def scanDown (s : List Nat) : Nat → Option Nat
  | 0 => if s.getD 0 0 ≠ 0 then some 0 else none
  | j+1 => if s.getD (j + 1) 0 ≠ 0 then some (j + 1) else scanDown s j

/-- The index popped from the tail: the last b bits before the dropped
flag bit, read little-endian. -/
def decodeIndex (s : List Nat) (b : Nat) : Nat :=
  fromBinary (s.dropLast.drop (s.dropLast.length - b)) b

/-- The working sequence after dropping the flag bit and the b index
bits from the tail. -/
def decodeBody (s : List Nat) (b : Nat) : List Nat :=
  s.dropLast.take (s.dropLast.length - b)

/-- The replay loop of decode: for k ascending over count positions,
set s[k] := s[k-d], reading already rewritten entries like the source. -/
def replayFrom (d : Nat) : Nat → Nat → List Nat → List Nat
  | _, 0, s => s
  | k, c+1, s => replayFrom d (k + 1) c (s.set k (s.getD (k - d) 0))

/-- One unwind iteration of decode (lines 172-192 of the source): pop the
flag and the index, recover the period from the marker by the backward
scan, reinsert l-p zeros and replay the removed repetition.  none models
the scan running out of range or a recovered period that would be
negative in the source (both undefined behaviour there). -/
def decodeStep (s : List Nat) (l p b : Nat) : Option (List Nat) :=
  match scanDown (decodeBody s b) (decodeIndex s b + p - 1) with
  | none => none
  | some j =>
    if j < decodeIndex s b then none
    else
      some (replayFrom (j - decodeIndex s b) j (l - (j - decodeIndex s b))
        ((decodeBody s b).take (decodeIndex s b + p) ++ List.replicate (l - p) 0
          ++ (decodeBody s b).drop (decodeIndex s b + p)))

/-- The unwind loop of decode, running while bit n is 0, driven by fuel;
each pass is followed by the assert in.size() == n+1, modelled as a
check. -/
def decodeLoop (n l p b : Nat) : Nat → List Nat → Option (List Nat)
  | 0, _ => none
  | fuel+1, s =>
    if s.getD n 0 = 0 then
      match decodeStep s l p b with
      | none => none
      | some s2 => if s2.length = n + 1 then decodeLoop n l p b fuel s2 else none
    else some s.dropLast

/-- Embeds decode: unwind pending corrections, then drop the trailing 1. -/
def decode (out : List Nat) (n l p fuel : Nat) : Option (List Nat) :=
  decodeLoop n l p (clog2 n) fuel out

/-- The part of the working sequence left of the appended record after a
correction: window erased, marker bit set, gap zeroed. -/
def markedPrefix (out : List Nat) (i d p l : Nat) : List Nat :=
  setZeros ((out.take (i + p) ++ out.drop (i + l)).set (i + d) 1) (i + d + 1) (p - d - 1)

/-- States from which the decode loop can recover x with some fuel. -/
def Unwinds (n l p b : Nat) (x s : List Nat) : Prop :=
  ∃ df, decodeLoop n l p b df s = some x

/-! Part 2: the verification (all theorems). -/

theorem clog2Aux_spec (f : Nat) : ∀ n, n ≤ f → n ≤ 2 ^ clog2Aux f n := by
  induction f with
  | zero =>
    intro n hn
    exact Nat.le_trans hn (Nat.zero_le _)
  | succ f ih =>
    intro n hn
    by_cases h1 : n ≤ 1
    · simpa [clog2Aux, h1] using h1
    · have h2 : (n + 1) / 2 ≤ f := by omega
      have h3 := ih ((n + 1) / 2) h2
      have h5 : clog2Aux (f + 1) n = clog2Aux f ((n + 1) / 2) + 1 := by
        simp [clog2Aux, h1]
      rw [h5, Nat.pow_succ]
      have h4 : n ≤ 2 * ((n + 1) / 2) := by omega
      calc n ≤ 2 * ((n + 1) / 2) := h4
        _ ≤ 2 * 2 ^ clog2Aux f ((n + 1) / 2) := Nat.mul_le_mul_left 2 h3
        _ = 2 ^ clog2Aux f ((n + 1) / 2) * 2 := Nat.mul_comm _ _

theorem le_two_pow_clog2 (n : Nat) : n ≤ 2 ^ clog2 n :=
  clog2Aux_spec n n (Nat.le_refl n)

theorem toBinary_length (i N : Nat) : (toBinary i N).length = N := by
  simp [toBinary]

theorem toBinary_getD (i N j : Nat) (hj : j < N) :
    (toBinary i N).getD j 0 = i / 2 ^ j % 2 := by
  simp [toBinary, List.getD_eq_getElem?_getD, List.getElem?_map,
    List.getElem?_range hj]

theorem fromBinary_succ (bin : List Nat) (w : Nat) :
    fromBinary bin (w + 1) = fromBinary bin w + bin.getD w 0 * 2 ^ w := by
  unfold fromBinary
  rw [List.range_succ, List.foldl_append]
  rfl

theorem fromBinary_congr (a b : List Nat) (N : Nat)
    (h : ∀ j, j < N → a.getD j 0 = b.getD j 0) :
    fromBinary a N = fromBinary b N := by
  induction N with
  | zero => rfl
  | succ w ih =>
    rw [fromBinary_succ, fromBinary_succ, ih (fun j hj => h j (by omega)),
      h w (by omega)]

theorem fromBinary_toBinary (v w : Nat) :
    fromBinary (toBinary v w) w = v % 2 ^ w := by
  induction w with
  | zero => simp [fromBinary, Nat.mod_one]
  | succ w ih =>
    have hcong : fromBinary (toBinary v (w + 1)) w = fromBinary (toBinary v w) w := by
      refine fromBinary_congr _ _ w (fun j hj => ?_)
      rw [toBinary_getD v (w + 1) j (by omega), toBinary_getD v w j hj]
    rw [fromBinary_succ, hcong, ih, toBinary_getD v (w + 1) w (by omega),
      Nat.mod_pow_succ]
    ring

theorem getD_append_left (a b : List Nat) (j : Nat) (h : j < a.length) :
    (a ++ b).getD j 0 = a.getD j 0 := by
  simp [List.getD_eq_getElem?_getD, List.getElem?_append, h]

theorem getD_append_right (a b : List Nat) (j : Nat) (h : a.length ≤ j) :
    (a ++ b).getD j 0 = b.getD (j - a.length) 0 := by
  simp [List.getD_eq_getElem?_getD, List.getElem?_append, Nat.not_lt.mpr h]

theorem getD_take (s : List Nat) (a j : Nat) (h : j < a) :
    (s.take a).getD j 0 = s.getD j 0 := by
  simp [List.getD_eq_getElem?_getD, List.getElem?_take, h]

theorem getD_drop (s : List Nat) (a j : Nat) :
    (s.drop a).getD j 0 = s.getD (a + j) 0 := by
  simp [List.getD_eq_getElem?_getD, List.getElem?_drop]

theorem getD_set_ne (s : List Nat) (k v j : Nat) (h : j ≠ k) :
    (s.set k v).getD j 0 = s.getD j 0 := by
  simp [List.getD_eq_getElem?_getD, List.getElem?_set_ne (Ne.symm h)]

theorem getD_set_self (s : List Nat) (k v : Nat) (h : k < s.length) :
    (s.set k v).getD k 0 = v := by
  simp [List.getD_eq_getElem?_getD, List.getElem?_set_self, h]

theorem getD_replicate (m c j : Nat) (h : j < m) :
    (List.replicate m c).getD j 0 = c := by
  simp [List.getD_eq_getElem?_getD, List.getElem?_replicate, h]

theorem getD_of_length_le (s : List Nat) (j : Nat) (h : s.length ≤ j) :
    s.getD j 0 = 0 := by
  simp [List.getD_eq_getElem?_getD, List.getElem?_eq_none h]

theorem ext_getD (a b : List Nat) (hlen : a.length = b.length)
    (h : ∀ j, j < a.length → a.getD j 0 = b.getD j 0) : a = b := by
  refine List.ext_get hlen (fun n h1 h2 => ?_)
  have := h n h1
  rwa [List.getD_eq_getElem?_getD, List.getD_eq_getElem?_getD,
    List.getElem?_eq_getElem h1, List.getElem?_eq_getElem h2] at this

theorem lcp_le_left : ∀ a b : List Nat, lcp a b ≤ a.length := by
  intro a
  induction a with
  | nil => intro b; cases b <;> simp [lcp]
  | cons x as ih =>
    intro b
    cases b with
    | nil => simp [lcp]
    | cons y bs =>
      by_cases h : x = y
      · simpa [lcp, h] using ih bs
      · simp [lcp, h]

theorem lcp_le_right : ∀ a b : List Nat, lcp a b ≤ b.length := by
  intro a
  induction a with
  | nil => intro b; cases b <;> simp [lcp]
  | cons x as ih =>
    intro b
    cases b with
    | nil => simp [lcp]
    | cons y bs =>
      by_cases h : x = y
      · simpa [lcp, h] using ih bs
      · simp [lcp, h]

theorem lcp_getD : ∀ (a b : List Nat) (u : Nat), u < lcp a b →
    a.getD u 0 = b.getD u 0 := by
  intro a
  induction a with
  | nil => intro b u hu; cases b <;> simp [lcp] at hu
  | cons x as ih =>
    intro b u hu
    cases b with
    | nil => simp [lcp] at hu
    | cons y bs =>
      by_cases h : x = y
      · cases u with
        | zero => simpa using h
        | succ u =>
          have := ih bs u (by simpa [lcp, h] using hu)
          simpa using this
      · simp [lcp, h] at hu

theorem lcp_mismatch : ∀ a b : List Nat, lcp a b < a.length →
    lcp a b < b.length → a.getD (lcp a b) 0 ≠ b.getD (lcp a b) 0 := by
  intro a
  induction a with
  | nil => intro b h1 h2; simp at h1
  | cons x as ih =>
    intro b h1 h2
    cases b with
    | nil => simp at h2
    | cons y bs =>
      by_cases h : x = y
      · have h1' : lcp as bs < as.length := by simpa [lcp, h] using h1
        have h2' : lcp as bs < bs.length := by simpa [lcp, h] using h2
        have := ih bs h1' h2'
        simpa [lcp, h] using this
      · simpa [lcp, h] using h

theorem le_lcp : ∀ (a b : List Nat) (m : Nat), m ≤ a.length → m ≤ b.length →
    (∀ u, u < m → a.getD u 0 = b.getD u 0) → m ≤ lcp a b := by
  intro a
  induction a with
  | nil =>
    intro b m hm _ _
    have hm0 : m = 0 := by simpa using hm
    subst hm0
    exact Nat.zero_le _
  | cons x as ih =>
    intro b m hm hm2 hag
    cases b with
    | nil =>
      simp only [lcp]
      simp at hm2
      omega
    | cons y bs =>
      cases m with
      | zero => exact Nat.zero_le _
      | succ m =>
        have hxy : x = y := by simpa using hag 0 (Nat.succ_pos m)
        have : m ≤ lcp as bs := by
          refine ih bs m (by simpa using hm) (by simpa using hm2) ?_
          intro u hu
          simpa using hag (u + 1) (by omega)
        simp [lcp, hxy]
        omega

theorem lcp_drop_le (s : List Nat) (i : Nat) : lcp s (s.drop i) ≤ s.length - i := by
  have := lcp_le_right s (s.drop i)
  simpa using this

theorem lcp_drop_getD (s : List Nat) (i u : Nat) (h : u < lcp s (s.drop i)) :
    s.getD (i + u) 0 = s.getD u 0 := by
  have := lcp_getD s (s.drop i) u h
  rw [getD_drop] at this
  exact this.symm

theorem zExtendAux_eq (s : List Nat) (L : Nat) : ∀ (f R : Nat),
    s.length - R ≤ f → L ≤ R → R ≤ s.length → R - L ≤ lcp s (s.drop L) →
    zExtendAux s L f R = L + lcp s (s.drop L) := by
  intro f
  induction f with
  | zero =>
    intro R hf hLR hRn hlow
    have hR : R = s.length := by omega
    have hup := lcp_drop_le s L
    simp only [zExtendAux]
    omega
  | succ f ih =>
    intro R hf hLR hRn hlow
    by_cases hcond : R < s.length ∧ s.getD (R - L) 0 = s.getD R 0
    · have hnext : R + 1 - L ≤ lcp s (s.drop L) := by
        by_contra hcon
        have hmeq : lcp s (s.drop L) = R - L := by omega
        have hmis := lcp_mismatch s (s.drop L) (by omega)
          (by simp only [List.length_drop]; omega)
        rw [hmeq] at hmis
        rw [getD_drop] at hmis
        have hLRL : L + (R - L) = R := by omega
        rw [hLRL] at hmis
        exact hmis hcond.2
      simp only [zExtendAux, if_pos hcond]
      exact ih (R + 1) (by omega) (by omega) (by omega) hnext
    · have hmeq : lcp s (s.drop L) = R - L := by
        rcases Nat.lt_or_ge R s.length with hRlt | hRge
        · by_contra hne
          have hlt : R - L < lcp s (s.drop L) := by omega
          have hag := lcp_drop_getD s L (R - L) hlt
          have hLRL : L + (R - L) = R := by omega
          rw [hLRL] at hag
          exact hcond ⟨hRlt, hag.symm ▸ hag⟩
        · have hup := lcp_drop_le s L
          omega
      simp only [zExtendAux, if_neg hcond]
      omega

theorem zExtend_eq (s : List Nat) (L R : Nat) (hLR : L ≤ R) (hRn : R ≤ s.length)
    (hlow : R - L ≤ lcp s (s.drop L)) :
    zExtend s L R = L + lcp s (s.drop L) :=
  zExtendAux_eq s L (s.length + 1 - R) R (by omega) hLR hRn hlow

theorem zFresh_inv (s : List Nat) (i : Nat) (z : List Nat) (L R : Nat)
    (inv : ZInv s i (z, L, R)) (hi1 : 1 ≤ i) (hin : i < s.length) :
    ZInv s (i + 1) (z.set (i - 1) (lcp s (s.drop i)), i, i + lcp s (s.drop i) - 1) := by
  have hup := lcp_drop_le s i
  have hlen : z.length = s.length := inv.hlen
  refine ⟨?_, ?_, ?_, ?_, ?_, ?_, ?_, ?_⟩
  · show (z.set (i - 1) (lcp s (s.drop i))).length = s.length
    simpa [List.length_set] using hlen
  · show i < i + 1
    omega
  · show i ≤ (i + lcp s (s.drop i) - 1) + 1
    omega
  · show i + lcp s (s.drop i) - 1 < s.length
    omega
  · exact Or.inl hi1
  · intro j hj1 hji
    rcases Nat.lt_or_ge j i with hlt | hge
    · show (z.set (i - 1) (lcp s (s.drop i))).getD (j - 1) 0 = lcp s (s.drop j)
      rw [getD_set_ne z (i - 1) _ (j - 1) (by omega)]
      exact inv.hdone j hj1 hlt
    · have hj : j = i := by omega
      subst hj
      show (z.set (j - 1) (lcp s (s.drop j))).getD (j - 1) 0 = lcp s (s.drop j)
      rw [getD_set_self z (j - 1) _ (by rw [hlen]; omega)]
  · intro j hji hjn
    show (z.set (i - 1) (lcp s (s.drop i))).getD (j - 1) 0 = 0
    rw [getD_set_ne z (i - 1) _ (j - 1) (by omega)]
    exact inv.htodo j (by omega) hjn
  · intro u hu
    have hu' : u < (i + lcp s (s.drop i) - 1) + 1 - i := hu
    exact lcp_drop_getD s i u (by omega)

theorem zCopy_eq (s : List Nat) (L R i : Nat) (hL1 : 1 ≤ L) (hLi : L < i)
    (hiR : i ≤ R) (hRn : R < s.length)
    (hbox : ∀ u, u < R + 1 - L → s.getD (L + u) 0 = s.getD u 0)
    (hzk : lcp s (s.drop (i - L)) < R - i + 1) :
    lcp s (s.drop i) = lcp s (s.drop (i - L)) := by
  have hklen : (s.drop (i - L)).length = s.length - (i - L) := by simp
  have hzkle : lcp s (s.drop (i - L)) ≤ s.length - (i - L) := lcp_drop_le s (i - L)
  have hchain : ∀ u, u < R + 1 - i → s.getD (i + u) 0 = s.getD ((i - L) + u) 0 := by
    intro u hu
    have h1 : i + u = L + ((i - L) + u) := by omega
    rw [h1]
    exact hbox ((i - L) + u) (by omega)
  refine Nat.le_antisymm ?_ ?_
  · by_contra hcon
    have hlt : lcp s (s.drop (i - L)) < lcp s (s.drop i) := by omega
    have h1 : s.getD (lcp s (s.drop (i - L))) 0 = s.getD (i + lcp s (s.drop (i - L))) 0 :=
      (lcp_drop_getD s i _ hlt).symm
    have h2 : s.getD (i + lcp s (s.drop (i - L))) 0 = s.getD ((i - L) + lcp s (s.drop (i - L))) 0 :=
      hchain _ (by omega)
    have hmis := lcp_mismatch s (s.drop (i - L)) (by omega) (by rw [hklen]; omega)
    rw [getD_drop] at hmis
    exact hmis (h1.trans h2)
  · refine le_lcp s (s.drop i) _ (by omega) (by simp; omega) ?_
    intro u hu
    have h1 := hchain u (by omega)
    have h2 := lcp_drop_getD s (i - L) u hu
    rw [getD_drop]
    rw [h1]
    exact h2.symm

theorem zExtendPre (s : List Nat) (L R i : Nat) (hL1 : 1 ≤ L) (hLi : L < i)
    (hiR : i ≤ R) (hRn : R < s.length)
    (hbox : ∀ u, u < R + 1 - L → s.getD (L + u) 0 = s.getD u 0)
    (hzk : R - i + 1 ≤ lcp s (s.drop (i - L))) :
    R - i ≤ lcp s (s.drop i) := by
  refine le_lcp s (s.drop i) _ (by omega) (by simp; omega) ?_
  intro u hu
  have h1 : i + u = L + ((i - L) + u) := by omega
  have h2 : s.getD (i + u) 0 = s.getD ((i - L) + u) 0 := by
    rw [h1]
    exact hbox ((i - L) + u) (by omega)
  have h3 := lcp_drop_getD s (i - L) u (by omega)
  rw [getD_drop]
  rw [h2]
  exact h3.symm

theorem zStep_inv (s : List Nat) (i : Nat) (st : List Nat × Nat × Nat)
    (inv : ZInv s i st) (hi1 : 1 ≤ i) (hin : i < s.length) :
    ZInv s (i + 1) (zStep s st i) := by
  obtain ⟨z, L, R⟩ := st
  have hlen : z.length = s.length := inv.hlen
  have hLi : L < i := inv.hLi
  have hLR : L ≤ R + 1 := inv.hLR
  have hRn : R < s.length := inv.hRn
  have hL0 : 1 ≤ L ∨ R = 0 := inv.hL0
  have hbox : ∀ u, u < R + 1 - L → s.getD (L + u) 0 = s.getD u 0 := inv.hbox
  have hstep : zStep s (z, L, R) i =
      if R < i then
        (z.set (i - 1) (zExtend s i i - i), i, zExtend s i i - 1)
      else if z.getD (i - L - 1) 0 < R - i + 1 then
        (z.set (i - 1) (z.getD (i - L - 1) 0), L, R)
      else
        (z.set (i - 1) (zExtend s i R - i), i, zExtend s i R - 1) := rfl
  rw [hstep]
  by_cases hbr : R < i
  · rw [if_pos hbr]
    have hRp : zExtend s i i = i + lcp s (s.drop i) :=
      zExtend_eq s i i (Nat.le_refl i) (by omega) (by omega)
    rw [hRp]
    have h1 : i + lcp s (s.drop i) - i = lcp s (s.drop i) := by omega
    rw [h1]
    exact zFresh_inv s i z L R inv hi1 hin
  · have hiR : i ≤ R := by omega
    have hL1 : 1 ≤ L := by
      rcases hL0 with h | h
      · exact h
      · omega
    rw [if_neg hbr]
    have hkz : z.getD (i - L - 1) 0 = lcp s (s.drop (i - L)) := by
      have := inv.hdone (i - L) (by omega) (by omega)
      have harg : i - L - 1 = (i - L) - 1 := rfl
      rw [harg]
      exact this
    by_cases hc : z.getD (i - L - 1) 0 < R - i + 1
    · rw [if_pos hc]
      rw [hkz] at hc
      have hcopy := zCopy_eq s L R i hL1 hLi hiR hRn hbox hc
      refine ⟨?_, ?_, ?_, ?_, ?_, ?_, ?_, ?_⟩
      · show (z.set (i - 1) (z.getD (i - L - 1) 0)).length = s.length
        simpa [List.length_set] using hlen
      · show L < i + 1
        omega
      · exact hLR
      · exact hRn
      · exact Or.inl hL1
      · intro j hj1 hji
        show (z.set (i - 1) (z.getD (i - L - 1) 0)).getD (j - 1) 0 = lcp s (s.drop j)
        rcases Nat.lt_or_ge j i with hlt | hge
        · rw [getD_set_ne z (i - 1) _ (j - 1) (by omega)]
          exact inv.hdone j hj1 hlt
        · have hj : j = i := by omega
          subst hj
          rw [getD_set_self z (j - 1) _ (by rw [hlen]; omega)]
          rw [hkz, hcopy]
      · intro j hji hjn
        show (z.set (i - 1) (z.getD (i - L - 1) 0)).getD (j - 1) 0 = 0
        rw [getD_set_ne z (i - 1) _ (j - 1) (by omega)]
        exact inv.htodo j (by omega) hjn
      · exact hbox
    · rw [if_neg hc]
      rw [hkz] at hc
      have hpre := zExtendPre s L R i hL1 hLi hiR hRn hbox (by omega)
      have hRp : zExtend s i R = i + lcp s (s.drop i) :=
        zExtend_eq s i R hiR (by omega) hpre
      rw [hRp]
      have h1 : i + lcp s (s.drop i) - i = lcp s (s.drop i) := by omega
      rw [h1]
      exact zFresh_inv s i z L R inv hi1 hin

theorem zFold_inv (s : List Nat) : ∀ (m a : Nat) (st : List Nat × Nat × Nat),
    1 ≤ a → a + m ≤ s.length → ZInv s a st →
    ZInv s (a + m) ((List.range' a m).foldl (zStep s) st) := by
  intro m
  induction m with
  | zero =>
    intro a st _ _ h
    simpa using h
  | succ m ih =>
    intro a st ha ham hinv
    rw [List.range'_succ, List.foldl_cons]
    have h1 : a + (m + 1) = (a + 1) + m := by omega
    rw [h1]
    exact ih (a + 1) _ (by omega) (by omega) (zStep_inv s a st hinv ha (by omega))

theorem zInit_inv (s : List Nat) (h2 : 2 ≤ s.length) :
    ZInv s 1 (List.replicate s.length 0, 0, 0) := by
  refine ⟨?_, ?_, ?_, ?_, ?_, ?_, ?_, ?_⟩
  · show (List.replicate s.length 0).length = s.length
    simp
  · show (0 : Nat) < 1
    omega
  · show (0 : Nat) ≤ 0 + 1
    omega
  · show (0 : Nat) < s.length
    omega
  · exact Or.inr rfl
  · intro j hj1 hji
    omega
  · intro j hj1 hjn
    show (List.replicate s.length 0).getD (j - 1) 0 = 0
    exact getD_replicate s.length 0 (j - 1) (by omega)
  · intro u hu
    have hu' : u < 0 + 1 - 0 := hu
    have hu0 : u = 0 := by omega
    subst hu0
    show s.getD (0 + 0) 0 = s.getD 0 0
    rfl

theorem zStep_length (s : List Nat) (st : List Nat × Nat × Nat) (i : Nat) :
    (zStep s st i).1.length = st.1.length := by
  unfold zStep
  split
  · simp
  · split <;> simp

theorem ComputeZ_length (s : List Nat) : (ComputeZ s).length = s.length := by
  unfold ComputeZ
  have hgen : ∀ (is : List Nat) (st : List Nat × Nat × Nat), st.1.length = s.length →
      ((is.foldl (zStep s) st)).1.length = s.length := by
    intro is
    induction is with
    | nil => intro st h; simpa using h
    | cons i rest ih =>
      intro st h
      rw [List.foldl_cons]
      exact ih _ (by rw [zStep_length]; exact h)
  exact hgen _ _ (by simp)

theorem ComputeZ_correct (s : List Nat) (j : Nat) (hj1 : 1 ≤ j) (hjn : j < s.length) :
    (ComputeZ s).getD (j - 1) 0 = lcp s (s.drop j) := by
  have h2 : 2 ≤ s.length := by omega
  have hinv := zFold_inv s (s.length - 1) 1 (List.replicate s.length 0, 0, 0)
    (Nat.le_refl 1) (by omega) (zInit_inv s h2)
  have hlen1 : 1 + (s.length - 1) = s.length := by omega
  rw [hlen1] at hinv
  exact hinv.hdone j hj1 hjn

theorem ComputeZ_last (s : List Nat) (h1 : 1 ≤ s.length) :
    (ComputeZ s).getD (s.length - 1) 0 = 0 := by
  by_cases h2 : 2 ≤ s.length
  · have hinv := zFold_inv s (s.length - 1) 1 (List.replicate s.length 0, 0, 0)
      (Nat.le_refl 1) (by omega) (zInit_inv s h2)
    have hlen1 : 1 + (s.length - 1) = s.length := by omega
    rw [hlen1] at hinv
    exact hinv.htodo s.length (Nat.le_refl _) (Nat.le_refl _)
  · have hl : s.length = 1 := by omega
    unfold ComputeZ
    rw [hl]
    simp

theorem ComputePeriods_eq_periodsSpec (s : List Nat) :
    ComputePeriods s = periodsSpec s := by
  unfold ComputePeriods periodsSpec
  refine List.filter_congr (fun q hq => ?_)
  have hq' : 1 ≤ q ∧ q < 1 + s.length := List.mem_range'_1.mp hq
  by_cases hqn : q < s.length
  · rw [ComputeZ_correct s q hq'.1 hqn]
    unfold zSpec
    rw [if_pos hqn]
  · have hq1 : q = s.length := by omega
    subst hq1
    rw [ComputeZ_last s (by omega)]
    unfold zSpec
    rw [if_neg hqn]

theorem mem_ComputePeriods (s : List Nat) (q : Nat) :
    q ∈ ComputePeriods s ↔ 1 ≤ q ∧ q ≤ s.length ∧ q + zSpec s q = s.length := by
  rw [ComputePeriods_eq_periodsSpec]
  unfold periodsSpec
  rw [List.mem_filter, List.mem_range'_1, beq_iff_eq]
  omega

theorem ComputePeriods_sorted (s : List Nat) :
    List.Pairwise (· < ·) (ComputePeriods s) := by
  unfold ComputePeriods
  exact (List.pairwise_lt_range' 1 s.length 1 (by omega)).sublist (List.filter_sublist _)

theorem length_mem_ComputePeriods (s : List Nat) (h : 1 ≤ s.length) :
    s.length ∈ ComputePeriods s := by
  rw [mem_ComputePeriods]
  refine ⟨h, Nat.le_refl _, ?_⟩
  unfold zSpec
  simp

theorem ComputePeriods_is_period (s : List Nat) (q : Nat) (hq : q ∈ ComputePeriods s) :
    ∀ u, u + q < s.length → s.getD u 0 = s.getD (u + q) 0 := by
  obtain ⟨h1, h2, h3⟩ := (mem_ComputePeriods s q).mp hq
  intro u hu
  have hqn : q < s.length := by omega
  unfold zSpec at h3
  rw [if_pos hqn] at h3
  have hlcp : u < lcp s (s.drop q) := by omega
  have := lcp_drop_getD s q u hlcp
  rw [Nat.add_comm q u] at this
  exact this.symm

theorem foldl_min_le_init : ∀ (xs : List Nat) (x : Nat), xs.foldl min x ≤ x := by
  intro xs
  induction xs with
  | nil => intro x; exact Nat.le_refl x
  | cons y ys ih =>
    intro x
    exact Nat.le_trans (ih (min x y)) (Nat.min_le_left x y)

theorem foldl_min_le_mem : ∀ (xs : List Nat) (x b : Nat), b ∈ xs → xs.foldl min x ≤ b := by
  intro xs
  induction xs with
  | nil => intro x b hb; cases hb
  | cons y ys ih =>
    intro x b hb
    rcases List.mem_cons.mp hb with h | h
    · subst h
      exact Nat.le_trans (foldl_min_le_init ys (min x b)) (Nat.min_le_right x b)
    · exact ih (min x y) b h

theorem foldl_min_mem : ∀ (xs : List Nat) (x : Nat), xs.foldl min x = x ∨ xs.foldl min x ∈ xs := by
  intro xs
  induction xs with
  | nil => intro x; exact Or.inl rfl
  | cons y ys ih =>
    intro x
    rcases ih (min x y) with h | h
    · rcases Nat.le_total x y with hxy | hxy
      · rw [List.foldl_cons, h, Nat.min_eq_left hxy]
        exact Or.inl rfl
      · rw [List.foldl_cons, h, Nat.min_eq_right hxy]
        exact Or.inr (List.mem_cons_self y ys)
    · exact Or.inr (List.mem_cons_of_mem y h)

theorem min?_spec (l : List Nat) (m : Nat) (h : l.min? = some m) :
    m ∈ l ∧ ∀ b ∈ l, m ≤ b := by
  cases l with
  | nil => cases h
  | cons x xs =>
    have hm : m = xs.foldl min x := by
      have : (x :: xs).min? = some (xs.foldl min x) := rfl
      rw [this] at h
      exact (Option.some.injEq _ _ ▸ h).symm
    subst hm
    constructor
    · rcases foldl_min_mem xs x with h1 | h1
      · rw [h1]; exact List.mem_cons_self x xs
      · exact List.mem_cons_of_mem x h1
    · intro b hb
      rcases List.mem_cons.mp hb with h1 | h1
      · subst h1
        exact foldl_min_le_init xs b
      · exact foldl_min_le_mem xs x b h1

theorem min?_isSome (l : List Nat) (h : l ≠ []) : ∃ m, l.min? = some m := by
  cases l with
  | nil => exact absurd rfl h
  | cons x xs => exact ⟨xs.foldl min x, rfl⟩

theorem ComputePeriods_ne_nil (s : List Nat) (h : s ≠ []) : ComputePeriods s ≠ [] := by
  intro hc
  have h1 : 1 ≤ s.length := by
    cases s with
    | nil => exact absurd rfl h
    | cons x xs => simp
  have := length_mem_ComputePeriods s h1
  rw [hc] at this
  cases this

theorem ComputeMinPeriod_isSome (s : List Nat) (h : s ≠ []) :
    ∃ m, ComputeMinPeriod s = some m :=
  min?_isSome _ (ComputePeriods_ne_nil s h)

theorem ComputeMinPeriod_mem (s : List Nat) (m : Nat) (h : ComputeMinPeriod s = some m) :
    m ∈ ComputePeriods s :=
  (min?_spec _ m h).1

theorem ComputeMinPeriod_le (s : List Nat) (m : Nat) (h : ComputeMinPeriod s = some m) :
    ∀ b ∈ ComputePeriods s, m ≤ b :=
  (min?_spec _ m h).2

theorem correctionStep_def (out : List Nat) (i d p l b : Nat) :
    correctionStep out i d p l b = markedPrefix out i d p l ++ toBinary i b ++ [0] := rfl

theorem setZeros_length : ∀ (c : Nat) (s : List Nat) (a : Nat),
    (setZeros s a c).length = s.length := by
  intro c
  induction c with
  | zero => intro s a; rfl
  | succ c ih =>
    intro s a
    show (setZeros (s.set a 0) (a + 1) c).length = s.length
    rw [ih, List.length_set]

theorem getD_set_zero (s : List Nat) (k : Nat) : (s.set k 0).getD k 0 = 0 := by
  rcases Nat.lt_or_ge k s.length with h | h
  · exact getD_set_self s k 0 h
  · rw [List.set_eq_of_length_le h]
    exact getD_of_length_le s k h

theorem setZeros_getD : ∀ (c : Nat) (s : List Nat) (a j : Nat),
    (setZeros s a c).getD j 0 = if a ≤ j ∧ j < a + c then 0 else s.getD j 0 := by
  intro c
  induction c with
  | zero =>
    intro s a j
    rw [if_neg (by omega)]
    rfl
  | succ c ih =>
    intro s a j
    show (setZeros (s.set a 0) (a + 1) c).getD j 0 = _
    rw [ih]
    by_cases h1 : a + 1 ≤ j ∧ j < a + 1 + c
    · rw [if_pos h1, if_pos (by omega)]
    · rw [if_neg h1]
      by_cases h2 : j = a
      · subst h2
        rw [if_pos (by omega)]
        exact getD_set_zero s j
      · rw [getD_set_ne s a 0 j h2, if_neg (by omega)]

theorem markedPrefix_length (out : List Nat) (i d p l : Nat) (hip : i + p ≤ out.length) :
    (markedPrefix out i d p l).length = (i + p) + (out.length - (i + l)) := by
  unfold markedPrefix
  rw [setZeros_length, List.length_set]
  simp only [List.length_append, List.length_take, List.length_drop]
  omega

theorem markedPrefix_getD_low (out : List Nat) (i d p l j : Nat)
    (hip : i + p ≤ out.length) (hj : j < i + d) (hjp : j < i + p) :
    (markedPrefix out i d p l).getD j 0 = out.getD j 0 := by
  unfold markedPrefix
  rw [setZeros_getD, if_neg (by omega), getD_set_ne _ _ _ _ (by omega)]
  rw [getD_append_left _ _ j (by rw [List.length_take]; omega)]
  exact getD_take out (i + p) j hjp

theorem markedPrefix_getD_marker (out : List Nat) (i d p l : Nat)
    (hip : i + p ≤ out.length) (hdp : d < p) :
    (markedPrefix out i d p l).getD (i + d) 0 = 1 := by
  unfold markedPrefix
  rw [setZeros_getD, if_neg (by omega)]
  refine getD_set_self _ (i + d) 1 ?_
  simp only [List.length_append, List.length_take, List.length_drop]
  omega

theorem markedPrefix_getD_zeros (out : List Nat) (i d p l j : Nat)
    (hdp : d < p) (hj1 : i + d < j) (hj2 : j < i + p) :
    (markedPrefix out i d p l).getD j 0 = 0 := by
  unfold markedPrefix
  rw [setZeros_getD, if_pos (by omega)]

theorem markedPrefix_getD_high (out : List Nat) (i d p l t : Nat)
    (hip : i + p ≤ out.length) (hdp : d < p) :
    (markedPrefix out i d p l).getD (i + p + t) 0 = out.getD (i + l + t) 0 := by
  unfold markedPrefix
  rw [setZeros_getD, if_neg (by omega), getD_set_ne _ _ _ _ (by omega)]
  rw [getD_append_right _ _ (i + p + t) (by rw [List.length_take]; omega)]
  have h1 : i + p + t - (out.take (i + p)).length = t := by
    rw [List.length_take]
    omega
  rw [h1, getD_drop]

theorem correction_dropLast (out : List Nat) (i d p l b : Nat) :
    (correctionStep out i d p l b).dropLast = markedPrefix out i d p l ++ toBinary i b := by
  rw [correctionStep_def]
  exact List.dropLast_concat

theorem correction_decodeIndex (out : List Nat) (i d p l b : Nat) (hib : i < 2 ^ b) :
    decodeIndex (correctionStep out i d p l b) b = i := by
  unfold decodeIndex
  rw [correction_dropLast]
  have hlen : (markedPrefix out i d p l ++ toBinary i b).length =
      (markedPrefix out i d p l).length + b := by
    rw [List.length_append, toBinary_length]
  rw [hlen]
  have h2 : (markedPrefix out i d p l).length + b - b = (markedPrefix out i d p l).length := by
    omega
  rw [h2, List.drop_left, fromBinary_toBinary]
  exact Nat.mod_eq_of_lt hib

theorem correction_decodeBody (out : List Nat) (i d p l b : Nat) :
    decodeBody (correctionStep out i d p l b) b = markedPrefix out i d p l := by
  unfold decodeBody
  rw [correction_dropLast]
  have hlen : (markedPrefix out i d p l ++ toBinary i b).length =
      (markedPrefix out i d p l).length + b := by
    rw [List.length_append, toBinary_length]
  rw [hlen]
  have h2 : (markedPrefix out i d p l).length + b - b = (markedPrefix out i d p l).length := by
    omega
  rw [h2, List.take_left]

theorem scanDown_finds (s : List Nat) (m : Nat) (hm : s.getD m 0 ≠ 0) :
    ∀ j, m ≤ j → (∀ k, m < k → k ≤ j → s.getD k 0 = 0) → scanDown s j = some m := by
  intro j
  induction j with
  | zero =>
    intro hmj hz
    have hm0 : m = 0 := by omega
    subst hm0
    show (if s.getD 0 0 ≠ 0 then some 0 else none) = some 0
    rw [if_pos hm]
  | succ j ih =>
    intro hmj hz
    by_cases he : m = j + 1
    · subst he
      show (if s.getD (j + 1) 0 ≠ 0 then some (j + 1) else scanDown s j) = some (j + 1)
      rw [if_pos hm]
    · have hz1 : s.getD (j + 1) 0 = 0 := hz (j + 1) (by omega) (Nat.le_refl _)
      show (if s.getD (j + 1) 0 ≠ 0 then some (j + 1) else scanDown s j) = some m
      rw [if_neg (fun hcon => hcon hz1)]
      exact ih (by omega) (fun k h1 h2 => hz k h1 (by omega))

theorem correction_scan (out : List Nat) (i d p l : Nat)
    (hip : i + p ≤ out.length) (hdp : d < p) :
    scanDown (markedPrefix out i d p l) (i + p - 1) = some (i + d) := by
  refine scanDown_finds _ (i + d) ?_ (i + p - 1) (by omega) ?_
  · rw [markedPrefix_getD_marker out i d p l hip hdp]
    omega
  · intro k h1 h2
    exact markedPrefix_getD_zeros out i d p l k hdp h1 (by omega)

theorem replayFrom_eq (st : List Nat) (d : Nat) (hd : 1 ≤ d) : ∀ (c k : Nat) (s : List Nat),
    s.length = st.length → d ≤ k → k + c ≤ st.length →
    (∀ j, j < k → s.getD j 0 = st.getD j 0) →
    (∀ j, k ≤ j → j < k + c → st.getD (j - d) 0 = st.getD j 0) →
    (∀ j, k + c ≤ j → s.getD j 0 = st.getD j 0) →
    replayFrom d k c s = st := by
  intro c
  induction c with
  | zero =>
    intro k s hlen hdk hkc hpre hper hsuf
    show s = st
    refine ext_getD s st hlen (fun j hj => ?_)
    rcases Nat.lt_or_ge j k with h | h
    · exact hpre j h
    · exact hsuf j (by omega)
  | succ c ih =>
    intro k s hlen hdk hkc hpre hper hsuf
    show replayFrom d (k + 1) c (s.set k (s.getD (k - d) 0)) = st
    have hv : s.getD (k - d) 0 = st.getD k 0 := by
      rw [hpre (k - d) (by omega)]
      exact hper k (Nat.le_refl k) (by omega)
    rw [hv]
    refine ih (k + 1) _ (by rw [List.length_set]; exact hlen) (by omega) (by omega) ?_ ?_ ?_
    · intro j hj
      rcases Nat.lt_or_ge j k with h | h
      · rw [getD_set_ne s k _ j (by omega)]
        exact hpre j h
      · have hj' : j = k := by omega
        subst hj'
        exact getD_set_self s j _ (by rw [hlen]; omega)
    · intro j h1 h2
      exact hper j (by omega) (by omega)
    · intro j hj
      rw [getD_set_ne s k _ j (by omega)]
      exact hsuf j (by omega)

theorem decodeStep_correction (out : List Nat) (n i d p l b : Nat)
    (hout : out.length = n + 1) (hl : l = p + b + 1) (hp : 1 ≤ p)
    (hil : i + l ≤ n + 1) (hnb : n ≤ 2 ^ b)
    (hcmp : ComputeMinPeriod ((out.drop i).take l) = some d) (hdp : d < p) :
    decodeStep (correctionStep out i d p l b) l p b = some out := by
  have hpl : p < l := by omega
  have hip : i + p ≤ out.length := by omega
  have hib : i < 2 ^ b := by omega
  have hmem := ComputeMinPeriod_mem _ d hcmp
  obtain ⟨hd1, hdlen, _⟩ := (mem_ComputePeriods _ d).mp hmem
  have hwlen : ((out.drop i).take l).length = l := by
    simp only [List.length_take, List.length_drop]
    omega
  have hdl : d ≤ l := by rw [hwlen] at hdlen; exact hdlen
  have hper0 := ComputePeriods_is_period _ d hmem
  have hper : ∀ u, u + d < l → out.getD (i + u) 0 = out.getD (i + u + d) 0 := by
    intro u hu
    have hw : ∀ v, v < l → ((out.drop i).take l).getD v 0 = out.getD (i + v) 0 := by
      intro v hv
      rw [getD_take _ _ _ hv, getD_drop]
    have h1 := hper0 u (by rw [hwlen]; exact hu)
    rw [hw u (by omega), hw (u + d) (by omega)] at h1
    rw [← Nat.add_assoc] at h1
    exact h1
  have hmplen : (markedPrefix out i d p l).length = i + p + (out.length - (i + l)) :=
    markedPrefix_length out i d p l hip
  have hidx : decodeIndex (correctionStep out i d p l b) b = i :=
    correction_decodeIndex out i d p l b hib
  have hbody : decodeBody (correctionStep out i d p l b) b = markedPrefix out i d p l :=
    correction_decodeBody out i d p l b
  have hscan : scanDown (markedPrefix out i d p l) (i + p - 1) = some (i + d) :=
    correction_scan out i d p l hip hdp
  unfold decodeStep
  rw [hidx, hbody, hscan]
  show (if i + d < i then none else
    some (replayFrom (i + d - i) (i + d) (l - (i + d - i))
      ((markedPrefix out i d p l).take (i + p) ++ List.replicate (l - p) 0
        ++ (markedPrefix out i d p l).drop (i + p)))) = some out
  rw [if_neg (by omega)]
  have hsub : i + d - i = d := by omega
  rw [hsub]
  refine congrArg some ?_
  have htklen : ((markedPrefix out i d p l).take (i + p)).length = i + p := by
    rw [List.length_take]
    omega
  have hABlen : ((markedPrefix out i d p l).take (i + p) ++ List.replicate (l - p) 0).length
      = i + l := by
    rw [List.length_append, htklen, List.length_replicate]
    omega
  refine replayFrom_eq out d hd1 (l - d) (i + d) _ ?_ (by omega) (by omega) ?_ ?_ ?_
  · simp only [List.length_append, List.length_take, List.length_replicate, List.length_drop]
    omega
  · intro j hj
    rw [List.append_assoc]
    rw [getD_append_left _ _ j (by rw [htklen]; omega)]
    rw [getD_take _ _ _ (by omega)]
    exact markedPrefix_getD_low out i d p l j hip hj (by omega)
  · intro j h1 h2
    have hu := hper (j - i - d) (by omega)
    have e1 : i + (j - i - d) = j - d := by omega
    rw [e1] at hu
    have e2 : j - d + d = j := by omega
    rw [e2] at hu
    exact hu
  · intro j hj
    rw [getD_append_right _ _ j (by rw [hABlen]; omega)]
    rw [hABlen, getD_drop]
    have h4 := markedPrefix_getD_high out i d p l (j - (i + l)) hip hdp
    rw [h4]
    have e4 : i + l + (j - (i + l)) = j := by omega
    rw [e4]

theorem encodePass_cons (n l p b : Nat) (out : List Nat) (found : Bool) (i : Nat)
    (rest : List Nat) :
    encodePass n l p b out found (i :: rest) =
      match ComputeMinPeriod ((out.drop i).take l) with
      | none => none
      | some d =>
        if d < p then
          if (correctionStep out i d p l b).length = n + 1 then
            encodePass n l p b (correctionStep out i d p l b) true rest
          else none
        else encodePass n l p b out found rest := rfl

theorem encodePass_cons_none (n l p b : Nat) (out : List Nat) (found : Bool) (i : Nat)
    (rest : List Nat) (hc : ComputeMinPeriod ((out.drop i).take l) = none) :
    encodePass n l p b out found (i :: rest) = none := by
  rw [encodePass_cons, hc]

theorem encodePass_cons_some (n l p b : Nat) (out : List Nat) (found : Bool) (i : Nat)
    (rest : List Nat) (d : Nat) (hc : ComputeMinPeriod ((out.drop i).take l) = some d) :
    encodePass n l p b out found (i :: rest) =
      if d < p then
        if (correctionStep out i d p l b).length = n + 1 then
          encodePass n l p b (correctionStep out i d p l b) true rest
        else none
      else encodePass n l p b out found rest := by
  rw [encodePass_cons, hc]

theorem encodePass_length (n l p b : Nat) : ∀ (is : List Nat) (out : List Nat)
    (found : Bool) (out2 : List Nat) (f2 : Bool),
    encodePass n l p b out found is = some (out2, f2) → out.length = n + 1 →
    out2.length = n + 1 := by
  intro is
  induction is with
  | nil =>
    intro out found out2 f2 h hlen
    have h' : out = out2 ∧ found = f2 := by
      have := h
      simp only [encodePass] at this
      exact ⟨congrArg Prod.fst (Option.some.inj this), congrArg Prod.snd (Option.some.inj this)⟩
    rw [← h'.1]
    exact hlen
  | cons i rest ih =>
    intro out found out2 f2 h hlen
    cases hc : ComputeMinPeriod ((out.drop i).take l) with
    | none => rw [encodePass_cons_none n l p b out found i rest hc] at h; cases h
    | some d =>
      rw [encodePass_cons_some n l p b out found i rest d hc] at h
      by_cases hdp : d < p
      · rw [if_pos hdp] at h
        by_cases hcl : (correctionStep out i d p l b).length = n + 1
        · rw [if_pos hcl] at h
          exact ih _ _ _ _ h hcl
        · rw [if_neg hcl] at h
          cases h
      · rw [if_neg hdp] at h
        exact ih _ _ _ _ h hlen

theorem encodePass_found_true (n l p b : Nat) : ∀ (is : List Nat) (out : List Nat)
    (out2 : List Nat) (f2 : Bool),
    encodePass n l p b out true is = some (out2, f2) → f2 = true := by
  intro is
  induction is with
  | nil =>
    intro out out2 f2 h
    simp only [encodePass] at h
    exact (congrArg Prod.snd (Option.some.inj h)).symm
  | cons i rest ih =>
    intro out out2 f2 h
    cases hc : ComputeMinPeriod ((out.drop i).take l) with
    | none => rw [encodePass_cons_none n l p b out true i rest hc] at h; cases h
    | some d =>
      rw [encodePass_cons_some n l p b out true i rest d hc] at h
      by_cases hdp : d < p
      · rw [if_pos hdp] at h
        by_cases hcl : (correctionStep out i d p l b).length = n + 1
        · rw [if_pos hcl] at h
          exact ih _ _ _ h
        · rw [if_neg hcl] at h
          cases h
      · rw [if_neg hdp] at h
        exact ih _ _ _ h

theorem encodePass_false_eq (n l p b : Nat) : ∀ (is : List Nat) (out : List Nat)
    (found : Bool) (out2 : List Nat),
    encodePass n l p b out found is = some (out2, false) → out2 = out := by
  intro is
  induction is with
  | nil =>
    intro out found out2 h
    simp only [encodePass] at h
    exact (congrArg Prod.fst (Option.some.inj h)).symm
  | cons i rest ih =>
    intro out found out2 h
    cases hc : ComputeMinPeriod ((out.drop i).take l) with
    | none => rw [encodePass_cons_none n l p b out found i rest hc] at h; cases h
    | some d =>
      rw [encodePass_cons_some n l p b out found i rest d hc] at h
      by_cases hdp : d < p
      · rw [if_pos hdp] at h
        by_cases hcl : (correctionStep out i d p l b).length = n + 1
        · rw [if_pos hcl] at h
          have := encodePass_found_true n l p b rest _ _ _ h
          cases this
        · rw [if_neg hcl] at h
          cases h
      · rw [if_neg hdp] at h
        exact ih _ _ _ h

theorem encodePass_false_windows (n l p b : Nat) : ∀ (is : List Nat) (out : List Nat)
    (found : Bool) (out2 : List Nat),
    encodePass n l p b out found is = some (out2, false) →
    ∀ i ∈ is, ∃ d, ComputeMinPeriod ((out2.drop i).take l) = some d ∧ p ≤ d := by
  intro is
  induction is with
  | nil =>
    intro out found out2 _ i hi
    cases hi
  | cons i rest ih =>
    intro out found out2 h j hj
    have hout2 : out2 = out := encodePass_false_eq n l p b _ _ _ _ h
    cases hc : ComputeMinPeriod ((out.drop i).take l) with
    | none => rw [encodePass_cons_none n l p b out found i rest hc] at h; cases h
    | some d =>
      rw [encodePass_cons_some n l p b out found i rest d hc] at h
      by_cases hdp : d < p
      · rw [if_pos hdp] at h
        by_cases hcl : (correctionStep out i d p l b).length = n + 1
        · rw [if_pos hcl] at h
          have := encodePass_found_true n l p b rest _ _ _ h
          cases this
        · rw [if_neg hcl] at h
          cases h
      · rw [if_neg hdp] at h
        rcases List.mem_cons.mp hj with hji | hjr
        · subst hji
          rw [hout2]
          exact ⟨d, hc, Nat.le_of_not_lt hdp⟩
        · exact ih _ _ _ h j hjr

theorem correctionStep_length (out : List Nat) (i d p l b : Nat)
    (hip : i + p ≤ out.length) :
    (correctionStep out i d p l b).length = (i + p) + (out.length - (i + l)) + b + 1 := by
  rw [correctionStep_def]
  simp only [List.length_append, markedPrefix_length out i d p l hip, toBinary_length,
    List.length_cons, List.length_nil]

theorem correction_getD_flag (out : List Nat) (n i d p l b : Nat)
    (hout : out.length = n + 1) (hl : l = p + b + 1) (hil : i + l ≤ n + 1) :
    (correctionStep out i d p l b).getD n 0 = 0 := by
  rw [correctionStep_def]
  have hip : i + p ≤ out.length := by omega
  have hlen : (markedPrefix out i d p l ++ toBinary i b).length = n := by
    rw [List.length_append, markedPrefix_length out i d p l hip, toBinary_length]
    omega
  rw [getD_append_right _ _ n hlen.le]
  rw [hlen]
  simp

theorem unwinds_correction (n l p b : Nat) (x out : List Nat) (i d : Nat)
    (hl : l = p + b + 1) (hp : 1 ≤ p) (hnb : n ≤ 2 ^ b)
    (hout : out.length = n + 1) (hil : i + l ≤ n + 1)
    (hcmp : ComputeMinPeriod ((out.drop i).take l) = some d) (hdp : d < p)
    (hu : Unwinds n l p b x out) :
    Unwinds n l p b x (correctionStep out i d p l b) := by
  obtain ⟨df, hdf⟩ := hu
  refine ⟨df + 1, ?_⟩
  show (if (correctionStep out i d p l b).getD n 0 = 0 then
      match decodeStep (correctionStep out i d p l b) l p b with
      | none => none
      | some s2 => if s2.length = n + 1 then decodeLoop n l p b df s2 else none
    else some (correctionStep out i d p l b).dropLast) = some x
  rw [if_pos (correction_getD_flag out n i d p l b hout hl hil)]
  rw [decodeStep_correction out n i d p l b hout hl hp hil hnb hcmp hdp]
  show (if out.length = n + 1 then decodeLoop n l p b df out else none) = some x
  rw [if_pos hout]
  exact hdf

theorem encodePass_unwinds (n l p b : Nat) (x : List Nat)
    (hl : l = p + b + 1) (hp : 1 ≤ p) (hnb : n ≤ 2 ^ b) :
    ∀ (is : List Nat) (out : List Nat) (found : Bool) (out2 : List Nat) (f2 : Bool),
    (∀ i ∈ is, i + l ≤ n + 1) → out.length = n + 1 → Unwinds n l p b x out →
    encodePass n l p b out found is = some (out2, f2) → Unwinds n l p b x out2 := by
  intro is
  induction is with
  | nil =>
    intro out found out2 f2 _ _ hu h
    simp only [encodePass] at h
    have h1 : out = out2 := congrArg Prod.fst (Option.some.inj h)
    rw [← h1]
    exact hu
  | cons i rest ih =>
    intro out found out2 f2 hbound hlen hu h
    cases hc : ComputeMinPeriod ((out.drop i).take l) with
    | none => rw [encodePass_cons_none n l p b out found i rest hc] at h; cases h
    | some d =>
      rw [encodePass_cons_some n l p b out found i rest d hc] at h
      by_cases hdp : d < p
      · rw [if_pos hdp] at h
        by_cases hcl : (correctionStep out i d p l b).length = n + 1
        · rw [if_pos hcl] at h
          have hil : i + l ≤ n + 1 := hbound i (List.mem_cons_self i rest)
          have hu2 := unwinds_correction n l p b x out i d hl hp hnb hlen hil hc hdp hu
          exact ih _ _ _ _ (fun j hj => hbound j (List.mem_cons_of_mem i hj)) hcl hu2 h
        · rw [if_neg hcl] at h
          cases h
      · rw [if_neg hdp] at h
        exact ih _ _ _ _ (fun j hj => hbound j (List.mem_cons_of_mem i hj)) hlen hu h

theorem encodePass_no_abort (n l p b : Nat) (hl : l = p + b + 1) :
    ∀ (is : List Nat) (out : List Nat) (found : Bool),
    (∀ i ∈ is, i + l ≤ n + 1) → out.length = n + 1 →
    encodePass n l p b out found is ≠ none := by
  intro is
  induction is with
  | nil =>
    intro out found _ _ h
    simp only [encodePass] at h
    exact Option.noConfusion h
  | cons i rest ih =>
    intro out found hbound hlen h
    have hil : i + l ≤ n + 1 := hbound i (List.mem_cons_self i rest)
    have hwne : (out.drop i).take l ≠ [] := by
      have hwl : ((out.drop i).take l).length = l := by
        simp only [List.length_take, List.length_drop]
        omega
      intro hnil
      rw [hnil] at hwl
      simp at hwl
      omega
    obtain ⟨d, hd⟩ := ComputeMinPeriod_isSome _ hwne
    rw [encodePass_cons_some n l p b out found i rest d hd] at h
    by_cases hdp : d < p
    · rw [if_pos hdp] at h
      have hcl : (correctionStep out i d p l b).length = n + 1 := by
        rw [correctionStep_length out i d p l b (by omega)]
        omega
      rw [if_pos hcl] at h
      exact ih _ _ (fun j hj => hbound j (List.mem_cons_of_mem i hj)) hcl h
    · rw [if_neg hdp] at h
      exact ih _ _ (fun j hj => hbound j (List.mem_cons_of_mem i hj)) hlen h

theorem encodeLoop_succ (n l p b fuel : Nat) (out : List Nat) :
    encodeLoop n l p b (fuel + 1) out =
      match encodePass n l p b out false (List.range ((n + 1) - (l - 1))) with
      | none => EncResult.abort
      | some (out2, found) =>
        if found then encodeLoop n l p b fuel out2 else EncResult.ok out2 := rfl

theorem encodeLoop_succ_none (n l p b fuel : Nat) (out : List Nat)
    (hps : encodePass n l p b out false (List.range ((n + 1) - (l - 1))) = none) :
    encodeLoop n l p b (fuel + 1) out = EncResult.abort := by
  rw [encodeLoop_succ, hps]

theorem encodeLoop_succ_some (n l p b fuel : Nat) (out o2 : List Nat) (f : Bool)
    (hps : encodePass n l p b out false (List.range ((n + 1) - (l - 1))) = some (o2, f)) :
    encodeLoop n l p b (fuel + 1) out =
      if f then encodeLoop n l p b fuel o2 else EncResult.ok o2 := by
  rw [encodeLoop_succ, hps]

theorem range_windows_bound (n l : Nat) (hl1 : 1 ≤ l) :
    ∀ i ∈ List.range ((n + 1) - (l - 1)), i + l ≤ n + 1 := by
  intro i hi
  have := List.mem_range.mp hi
  omega

theorem encodeLoop_length (n l p b : Nat) : ∀ (fuel : Nat) (out out2 : List Nat),
    out.length = n + 1 → encodeLoop n l p b fuel out = EncResult.ok out2 →
    out2.length = n + 1 := by
  intro fuel
  induction fuel with
  | zero => intro out out2 _ h; cases h
  | succ fuel ih =>
    intro out out2 hlen h
    cases hps : encodePass n l p b out false (List.range ((n + 1) - (l - 1))) with
    | none => rw [encodeLoop_succ_none n l p b fuel out hps] at h; cases h
    | some pr =>
      obtain ⟨o2, f⟩ := pr
      rw [encodeLoop_succ_some n l p b fuel out o2 f hps] at h
      have ho2 : o2.length = n + 1 := encodePass_length n l p b _ _ _ _ _ hps hlen
      cases f with
      | true =>
        rw [if_pos rfl] at h
        exact ih o2 out2 ho2 h
      | false =>
        rw [if_neg (by simp)] at h
        cases h
        exact ho2

theorem encodeLoop_unwinds (n l p b : Nat) (x : List Nat)
    (hl : l = p + b + 1) (hp : 1 ≤ p) (hnb : n ≤ 2 ^ b) :
    ∀ (fuel : Nat) (out out2 : List Nat),
    out.length = n + 1 → Unwinds n l p b x out →
    encodeLoop n l p b fuel out = EncResult.ok out2 → Unwinds n l p b x out2 := by
  intro fuel
  induction fuel with
  | zero => intro out out2 _ _ h; cases h
  | succ fuel ih =>
    intro out out2 hlen hu h
    cases hps : encodePass n l p b out false (List.range ((n + 1) - (l - 1))) with
    | none => rw [encodeLoop_succ_none n l p b fuel out hps] at h; cases h
    | some pr =>
      obtain ⟨o2, f⟩ := pr
      rw [encodeLoop_succ_some n l p b fuel out o2 f hps] at h
      have hb : ∀ i ∈ List.range ((n + 1) - (l - 1)), i + l ≤ n + 1 :=
        range_windows_bound n l (by omega)
      have ho2 : o2.length = n + 1 := encodePass_length n l p b _ _ _ _ _ hps hlen
      have hu2 : Unwinds n l p b x o2 :=
        encodePass_unwinds n l p b x hl hp hnb _ _ _ _ _ hb hlen hu hps
      cases f with
      | true =>
        rw [if_pos rfl] at h
        exact ih o2 out2 ho2 hu2 h
      | false =>
        rw [if_neg (by simp)] at h
        cases h
        exact hu2

theorem encodeLoop_no_abort (n l p b : Nat) (hl : l = p + b + 1) :
    ∀ (fuel : Nat) (out : List Nat), out.length = n + 1 →
    encodeLoop n l p b fuel out ≠ EncResult.abort := by
  intro fuel
  induction fuel with
  | zero => intro out _ h; cases h
  | succ fuel ih =>
    intro out hlen h
    cases hps : encodePass n l p b out false (List.range ((n + 1) - (l - 1))) with
    | none =>
      exact encodePass_no_abort n l p b hl _ _ _
        (range_windows_bound n l (by omega)) hlen hps
    | some pr =>
      obtain ⟨o2, f⟩ := pr
      rw [encodeLoop_succ_some n l p b fuel out o2 f hps] at h
      have ho2 : o2.length = n + 1 := encodePass_length n l p b _ _ _ _ _ hps hlen
      cases f with
      | true =>
        rw [if_pos rfl] at h
        exact ih o2 ho2 h
      | false =>
        rw [if_neg (by simp)] at h
        cases h

theorem encodeLoop_windows (n l p b : Nat) : ∀ (fuel : Nat) (out out2 : List Nat),
    encodeLoop n l p b fuel out = EncResult.ok out2 →
    ∀ i, i < (n + 1) - (l - 1) →
    ∃ d, ComputeMinPeriod ((out2.drop i).take l) = some d ∧ p ≤ d := by
  intro fuel
  induction fuel with
  | zero => intro out out2 h; cases h
  | succ fuel ih =>
    intro out out2 h i hi
    cases hps : encodePass n l p b out false (List.range ((n + 1) - (l - 1))) with
    | none => rw [encodeLoop_succ_none n l p b fuel out hps] at h; cases h
    | some pr =>
      obtain ⟨o2, f⟩ := pr
      rw [encodeLoop_succ_some n l p b fuel out o2 f hps] at h
      cases f with
      | true =>
        rw [if_pos rfl] at h
        exact ih o2 out2 h i hi
      | false =>
        rw [if_neg (by simp)] at h
        cases h
        exact encodePass_false_windows n l p b _ _ _ _ hps i (List.mem_range.mpr hi)

theorem decodeLoop_succ (n l p b fuel : Nat) (s : List Nat) :
    decodeLoop n l p b (fuel + 1) s =
      if s.getD n 0 = 0 then
        match decodeStep s l p b with
        | none => none
        | some s2 => if s2.length = n + 1 then decodeLoop n l p b fuel s2 else none
      else some s.dropLast := rfl

theorem unwinds_init (n l p b : Nat) (x : List Nat) (hx : x.length = n) :
    Unwinds n l p b x (x ++ [1]) := by
  refine ⟨0 + 1, ?_⟩
  rw [decodeLoop_succ]
  have hflag : (x ++ [1]).getD n 0 = 1 := by
    rw [getD_append_right x [1] n (by omega)]
    rw [hx]
    simp
  rw [if_neg (by rw [hflag]; omega)]
  rw [List.dropLast_concat]

theorem getLast?_of_sorted_max : ∀ (l : List Nat) (m : Nat),
    List.Pairwise (· < ·) l → m ∈ l → (∀ y ∈ l, y ≤ m) → l.getLast? = some m := by
  intro l
  induction l with
  | nil => intro m _ hm _; cases hm
  | cons x xs ih =>
    intro m hs hm hub
    cases xs with
    | nil =>
      have hmx : m = x := by
        rcases List.mem_cons.mp hm with h | h
        · exact h
        · cases h
      subst hmx
      rfl
    | cons y ys =>
      have hgl : (x :: y :: ys).getLast? = (y :: ys).getLast? := rfl
      rw [hgl]
      have hxy : x < y := (List.pairwise_cons.mp hs).1 y (List.mem_cons_self y ys)
      have hmtail : m ∈ y :: ys := by
        rcases List.mem_cons.mp hm with h | h
        · subst h
          have := hub y (List.mem_cons_of_mem m (List.mem_cons_self y ys))
          omega
        · exact h
      exact ih m (List.pairwise_cons.mp hs).2 hmtail
        (fun z hz => hub z (List.mem_cons_of_mem x hz))

theorem ComputePeriods_le_length (s : List Nat) (q : Nat) (hq : q ∈ ComputePeriods s) :
    q ≤ s.length :=
  ((mem_ComputePeriods s q).mp hq).2.1

/-- Claim C1, counterexample.  The triple n=8, l=7, p=2 satisfies the
spec's validity bound l ≥ p + ceil(log2 n) + 1 = 6, yet on the all-zero
input the first correction changes the working length to 8 ≠ 9, the
assert out.size() == n+1 fails and encode aborts without producing any
output, so decode(encode(x,n,l,p),n,l,p) = x fails at this input. -/
theorem C1_round_trip_cex :
    2 + clog2 8 + 1 ≤ 7 ∧ (List.replicate 8 0).length = 8 ∧
    encode (List.replicate 8 0) 8 7 2 1 = EncResult.abort ∧
    encode (List.replicate 8 0) 8 7 2 37 = EncResult.abort := by
  refine ⟨by decide, by decide, ?_, ?_⟩ <;> rfl

/-- The abort in the C1 counterexample is not a fuel artifact: every
positive fuel gives the same aborted run. -/
theorem encode_cex_abort_all_fuel :
    ∀ fuel, 1 ≤ fuel → encode (List.replicate 8 0) 8 7 2 fuel = EncResult.abort := by
  intro fuel hf
  obtain ⟨f, rfl⟩ : ∃ f, fuel = f + 1 := ⟨fuel - 1, by omega⟩
  rfl

/-- Claim C1 (amended to l = p + ceil(log2 n) + 1 exactly, the only case
in which the correction step keeps length n+1; and conditional on the
encode scan loop terminating, which the design description itself leaves
unproven): the encoder never aborts, and whenever it returns a sequence,
decode returns the original input. -/
theorem C1_round_trip (n l p fuel : Nat) (x : List Nat)
    (hn : 1 ≤ n) (hp : 1 ≤ p) (hl : l = p + clog2 n + 1) (hx : x.length = n) :
    encode x n l p fuel ≠ EncResult.abort ∧
    ∀ e, encode x n l p fuel = EncResult.ok e → ∃ df, decode e n l p df = some x := by
  have hnb := le_two_pow_clog2 n
  constructor
  · exact encodeLoop_no_abort n l p (clog2 n) hl fuel (x ++ [1]) (by simp [hx])
  · intro e he
    exact encodeLoop_unwinds n l p (clog2 n) x hl hp hnb fuel (x ++ [1]) e
      (by simp [hx]) (unwinds_init n l p (clog2 n) x hx) he

/-- Claim C1 witness at n=8, l=6, p=2, x = 11111111: the encoder returns
111110000 after one correction and decode recovers x. -/
theorem C1_round_trip_witness :
    ∃ df, decode [1, 1, 1, 1, 1, 0, 0, 0, 0] 8 6 2 df = some [1, 1, 1, 1, 1, 1, 1, 1] :=
  (C1_round_trip 8 6 2 2 [1, 1, 1, 1, 1, 1, 1, 1]
    (by decide) (by decide) (by decide) (by decide)).2
    [1, 1, 1, 1, 1, 0, 0, 0, 0] (by decide)

/-- Claim C2: every length-l window of a sequence returned by encode has
computed minimal period at least p (window starts i < (n+1)-(l-1)). -/
theorem C2_period_bound (n l p fuel : Nat) (x e : List Nat)
    (hn : 1 ≤ n) (hp : 1 ≤ p) (hl : p + clog2 n + 1 ≤ l)
    (he : encode x n l p fuel = EncResult.ok e)
    (i : Nat) (hi : i < (n + 1) - (l - 1)) :
    ∃ d, ComputeMinPeriod ((e.drop i).take l) = some d ∧ p ≤ d :=
  encodeLoop_windows n l p (clog2 n) fuel (x ++ [1]) e he i hi

/-- Claim C2 witness at n=8, l=6, p=2, x = 11111111, window start 0. -/
theorem C2_period_bound_witness :
    ∃ d, ComputeMinPeriod (([1, 1, 1, 1, 1, 0, 0, 0, 0].drop 0).take 6) = some d ∧ 2 ≤ d :=
  C2_period_bound 8 6 2 2 [1, 1, 1, 1, 1, 1, 1, 1] [1, 1, 1, 1, 1, 0, 0, 0, 0]
    (by decide) (by decide) (by decide) (by decide) 0 (by decide)

/-- Claim C3: every sequence returned by encode on an input of length n
has length exactly n+1 (the embedded assert rules out every other exit). -/
theorem C3_length (n l p fuel : Nat) (x e : List Nat)
    (hn : 1 ≤ n) (hp : 1 ≤ p) (hl : p + clog2 n + 1 ≤ l) (hx : x.length = n)
    (he : encode x n l p fuel = EncResult.ok e) : e.length = n + 1 :=
  encodeLoop_length n l p (clog2 n) fuel (x ++ [1]) e (by simp [hx]) he

/-- Claim C3 witness at n=8, l=6, p=2, x = 11111111. -/
theorem C3_length_witness : ([1, 1, 1, 1, 1, 0, 0, 0, 0] : List Nat).length = 8 + 1 :=
  C3_length 8 6 2 2 [1, 1, 1, 1, 1, 1, 1, 1] [1, 1, 1, 1, 1, 0, 0, 0, 0]
    (by decide) (by decide) (by decide) (by decide) (by decide)

/-- Claim C5, counterexample.  At n=8, l=7, p=2 (satisfying the spec's
l ≥ p + ceil(log2 n) + 1 = 6) a genuine correction of the all-zero
working sequence (minimal window period 1 < 2) yields length 8, not
n+1 = 9: the net length change -(l-p) + ceil(log2 n) + 1 is zero only
when l equals the bound. -/
theorem C5_correction_length_cex :
    2 + clog2 8 + 1 ≤ 7 ∧ ([0, 0, 0, 0, 0, 0, 0, 0, 1] : List Nat).length = 8 + 1 ∧
    ComputeMinPeriod ((([0, 0, 0, 0, 0, 0, 0, 0, 1] : List Nat).drop 0).take 7) = some 1 ∧
    (correctionStep [0, 0, 0, 0, 0, 0, 0, 0, 1] 0 1 2 7 3).length ≠ 8 + 1 := by
  refine ⟨by decide, by decide, by decide, by decide⟩

/-- Claim C5 (amended to l = p + b + 1 exactly, with b the index width):
one correction step leaves the working length at n+1. -/
theorem C5_correction_length (out : List Nat) (n i d p l b : Nat)
    (hout : out.length = n + 1) (hl : l = p + b + 1) (hil : i + l ≤ n + 1) :
    (correctionStep out i d p l b).length = n + 1 := by
  rw [correctionStep_length out i d p l b (by omega)]
  omega

/-- Claim C5 witness at n=8, l=6, p=2, i=0, d=1 on the all-ones
length-9 working sequence. -/
theorem C5_correction_length_witness :
    (correctionStep [1, 1, 1, 1, 1, 1, 1, 1, 1] 0 1 2 6 3).length = 8 + 1 :=
  C5_correction_length [1, 1, 1, 1, 1, 1, 1, 1, 1] 8 0 1 2 6 3
    (by decide) (by decide) (by decide)

/-- Claim C6: right after a correction at window start i with recovered
period d, the decoder reads back index i, and the backward scan from
index+p-1 stops at the marker position i+d, which is at least the index,
because the correction wrote a 1 at offset i+d and zeros strictly
between i+d and i+p. -/
theorem C6_scan_safe (out : List Nat) (n i d p l b : Nat)
    (hout : out.length = n + 1) (hl : l = p + b + 1) (hp : 1 ≤ p) (hnb : n ≤ 2 ^ b)
    (hil : i + l ≤ n + 1)
    (hcmp : ComputeMinPeriod ((out.drop i).take l) = some d) (hdp : d < p) :
    decodeIndex (correctionStep out i d p l b) b = i ∧
    scanDown (decodeBody (correctionStep out i d p l b) b)
      (decodeIndex (correctionStep out i d p l b) b + p - 1) = some (i + d) ∧
    i ≤ i + d := by
  have hib : i < 2 ^ b := by omega
  have hidx := correction_decodeIndex out i d p l b hib
  refine ⟨hidx, ?_, Nat.le_add_right i d⟩
  rw [hidx, correction_decodeBody out i d p l b]
  exact correction_scan out i d p l (by omega) hdp

/-- Claim C6 witness on the correction of the all-ones length-9 sequence
at i=0 with d=1 (n=8, l=6, p=2, b=3). -/
theorem C6_scan_safe_witness :
    decodeIndex (correctionStep [1, 1, 1, 1, 1, 1, 1, 1, 1] 0 1 2 6 3) 3 = 0 ∧
    scanDown (decodeBody (correctionStep [1, 1, 1, 1, 1, 1, 1, 1, 1] 0 1 2 6 3) 3)
      (decodeIndex (correctionStep [1, 1, 1, 1, 1, 1, 1, 1, 1] 0 1 2 6 3) 3 + 2 - 1)
      = some (0 + 1) ∧
    0 ≤ 0 + 1 :=
  C6_scan_safe [1, 1, 1, 1, 1, 1, 1, 1, 1] 8 0 1 2 6 3
    (by decide) (by decide) (by decide) (by decide) (by decide) (by decide) (by decide)

/-- Claim C7, counterexample.  On the empty bit sequence the program
returns the empty period list, so the period list is not always
non-empty and has no last element there. -/
theorem C7_periods_cex : ComputePeriods ([] : List Nat) = [] := rfl

/-- Claim C7 (amended: non-emptiness and last element |s| hold for
non-empty s; the characterization itself holds for every s): the
computed period list is exactly the ascending list of q in 1..|s| with
q + Z[q] = |s| (Z[|s|] read as 0). -/
theorem C7_periods (s : List Nat) :
    ComputePeriods s = periodsSpec s ∧
    List.Pairwise (· < ·) (ComputePeriods s) ∧
    (s ≠ [] → ComputePeriods s ≠ [] ∧ (ComputePeriods s).getLast? = some s.length) := by
  refine ⟨ComputePeriods_eq_periodsSpec s, ComputePeriods_sorted s, fun hne => ?_⟩
  have h1 : 1 ≤ s.length := by
    cases s with
    | nil => exact absurd rfl hne
    | cons a as => simp
  refine ⟨ComputePeriods_ne_nil s hne, ?_⟩
  exact getLast?_of_sorted_max (ComputePeriods s) s.length (ComputePeriods_sorted s)
    (length_mem_ComputePeriods s h1) (fun y hy => ComputePeriods_le_length s y hy)

/-- Claim C7 witness at the design description's example 101010. -/
theorem C7_periods_witness :
    ComputePeriods [1, 0, 1, 0, 1, 0] = periodsSpec [1, 0, 1, 0, 1, 0] ∧
    List.Pairwise (· < ·) (ComputePeriods [1, 0, 1, 0, 1, 0]) ∧
    (([1, 0, 1, 0, 1, 0] : List Nat) ≠ [] → ComputePeriods [1, 0, 1, 0, 1, 0] ≠ [] ∧
      (ComputePeriods [1, 0, 1, 0, 1, 0]).getLast? =
        some ([1, 0, 1, 0, 1, 0] : List Nat).length) :=
  C7_periods [1, 0, 1, 0, 1, 0]

/-- Claim C8: on a non-empty sequence ComputeMinPeriod returns the
minimum of the period list; on the empty sequence it has no value (the
source dereferences min_element of an empty vector). -/
theorem C8_min_period :
    ComputeMinPeriod ([] : List Nat) = none ∧
    ∀ s : List Nat, s ≠ [] →
      ∃ m, ComputeMinPeriod s = some m ∧ m ∈ ComputePeriods s ∧
        ∀ q ∈ ComputePeriods s, m ≤ q := by
  refine ⟨rfl, fun s hs => ?_⟩
  obtain ⟨m, hm⟩ := ComputeMinPeriod_isSome s hs
  exact ⟨m, hm, ComputeMinPeriod_mem s m hm, ComputeMinPeriod_le s m hm⟩

/-- Claim C8 witness at 101010, whose minimal period is 2. -/
theorem C8_min_period_witness :
    ∃ m, ComputeMinPeriod [1, 0, 1, 0, 1, 0] = some m ∧
      m ∈ ComputePeriods [1, 0, 1, 0, 1, 0] ∧
      ∀ q ∈ ComputePeriods [1, 0, 1, 0, 1, 0], m ≤ q :=
  C8_min_period.2 [1, 0, 1, 0, 1, 0] (by decide)

/-- Claim C9: for 0 ≤ v < 2^w the little-endian w-bit round trip
returns v. -/
theorem C9_bit_roundtrip (v w : Nat) (h : v < 2 ^ w) :
    fromBinary (toBinary v w) w = v := by
  rw [fromBinary_toBinary]
  exact Nat.mod_eq_of_lt h

/-- Claim C9 witness at v=5, w=3. -/
theorem C9_bit_roundtrip_witness : fromBinary (toBinary 5 3) 3 = 5 :=
  C9_bit_roundtrip 5 3 (by decide)

/-- Claim C10: for every v and w, toBinary keeps exactly the w least
significant bits, so the round trip returns v mod 2^w. -/
theorem C10_bit_mod (v w : Nat) : fromBinary (toBinary v w) w = v % 2 ^ w :=
  fromBinary_toBinary v w

/-- Claim C10 witness at v=11, w=3 (11 mod 8 = 3). -/
theorem C10_bit_mod_witness : fromBinary (toBinary 11 3) 3 = 11 % 2 ^ 3 :=
  C10_bit_mod 11 3

end Deperiodize
